import Mathlib

/-!
Verification of the hybrid retrieval engine of the Judicial-AI-Chatbot
repository (`src/retrieval/hybrid_retriever.py`, `src/embeddings/vector_store.py`,
`config/settings.py`).

The embedding is shallow: Python dictionaries holding a chunk's text and
metadata become the `Doc` structure; relevance scores (Python floats) are
modelled as rationals `ℚ`; external collaborators (the sentence-transformer
embedding model, the Chroma/FAISS index, the sklearn TF-IDF vectorizer and
numpy matrix products) are oracle functions returning `Except Unit _`, where
`Except.error ()` models the call raising an exception; the `try/except`
blocks of the Python code become `match` on that `Except`. Python's
`k = k or default` argument defaulting is modelled with `Option Nat`, where
`none` is Python `None` and `some 0` is the falsy integer `0`.
-/

/-- A retrievable chunk: a Python dict with a `"text"` field plus metadata.
The metadata is collapsed to the one field (`page`) needed to distinguish
chunks; fusion only ever inspects `text` (cf. `_aggregate_results`). -/
structure Doc where
  text : String
  page : Nat
deriving DecidableEq

/-- A `(document, relevance_score)` pair as returned by the searches. -/
abbrev Result := Doc × ℚ

/-- A metadata filter mapping (string keys to string values). Filters are
only ever passed through to the vector-index backend, never inspected by
the retriever itself. -/
abbrev Filters := List (String × String)

/-- The retrieval-relevant fields of `config/settings.py` (`Settings`). -/
structure Settings where
  RETRIEVAL_K : Nat
  RETRIEVAL_K_MAX : Nat
  SIMILARITY_THRESHOLD : ℚ
  USE_HYBRID_RETRIEVAL : Bool

/-- The default values of `config/settings.py` lines 38-41. -/
def defaultSettings : Settings :=
  { RETRIEVAL_K := 5
    RETRIEVAL_K_MAX := 15
    SIMILARITY_THRESHOLD := 3/10
    USE_HYBRID_RETRIEVAL := true }

/-- Oracle for the composite external call of `_dense_search` lines 84-85:
`embedding_gen.embed_text(query)` followed by `vector_store.search(emb, k,
filters)`. `Except.error ()` models an exception raised anywhere inside the
`try` block; `Except.ok rs` the `(doc, score)` list the index returned. The
oracle receives only the query, the cardinality `k` and the metadata filters —
the index contract has no score parameter, so it cannot pre-filter by score. -/
structure DenseBackend where
  searchRaw : String → Nat → Option Filters → Except Unit (List Result)

/-- State of `HybridRetriever`'s sparse side: `self.vectorizer` /
`self.tfidf_matrix` (`hasVectorizer` is `True` iff both are set), and the
external sklearn/numpy computation of lines 114-115
(`(query_vector * tfidf_matrix.T).toarray()[0]`), which yields one TF-IDF
score per indexed document or raises. -/
structure SparseIndex where
  hasVectorizer : Bool
  scoresOf : String → Except Unit (List ℚ)

/-- `_dense_search` (hybrid_retriever.py lines 72-98): call the embedding
model and the vector index, keep results with `score >= SIMILARITY_THRESHOLD`;
any exception is caught and returns `[]`. -/
def dense_search (st : Settings) (b : DenseBackend) (query : String) (k : Nat)
    (filters : Option Filters) : List Result :=
  match b.searchRaw query k filters with
  | Except.error _ => []
  | Except.ok results => results.filter (fun r => st.SIMILARITY_THRESHOLD ≤ r.2)

/-- `np.argsort(-scores)[:k]` of `_sparse_search` line 118: the indices of
`scores`, ordered by descending score. -/
def argsortDesc (scores : List ℚ) : List Nat :=
  (List.range scores.length).insertionSort (fun i j => scores.getD j 0 ≤ scores.getD i 0)

/-- `_sparse_search` (hybrid_retriever.py lines 100-133): if no vectorizer was
built return `[]`; otherwise score every document, take the `k` best indices,
and keep those with `score > 0` that resolve in the positional metadata store
(`metadata_store.get(str(idx))`, modelled as list indexing); any exception is
caught and returns `[]`. -/
def sparse_search (idx : SparseIndex) (metadata_store : List Doc) (query : String)
    (k : Nat) : List Result :=
  if ¬ idx.hasVectorizer then []
  else
    match idx.scoresOf query with
    | Except.error _ => []
    | Except.ok scores =>
      ((argsortDesc scores).take k).filterMap (fun i =>
        let s := scores.getD i 0
        if 0 < s ∧ i < metadata_store.length then
          (metadata_store[i]?).map (fun d => (d, s))
        else none)

/-- The fusion deduplication key of `_aggregate_results` lines 153 and 159:
`doc.get("text", "")[:100]`, the first 100 characters of the chunk's text. -/
def docKey (d : Doc) : String := d.text.take 100

/-- The RRF rank weight of `_aggregate_results` lines 154 and 160:
`1.0 / (60 + rank)`. -/
def rrfWeight (rank : Nat) : ℚ := 1 / (60 + (rank : ℚ))

/-- `result_scores[doc_key] = result_scores.get(doc_key, 0) + v` on a Python
dict modelled as an insertion-ordered association list: add `v` to the first
entry with key `key`, or append `(key, v)` at the end. -/
def bumpKey (tbl : List (String × ℚ)) (key : String) (v : ℚ) : List (String × ℚ) :=
  match tbl with
  | [] => [(key, v)]
  | (k, w) :: rest =>
    if k = key then (k, w + v) :: rest else (k, w) :: bumpKey rest key v

/-- One `for rank, (doc, score) in enumerate(results)` accumulation loop of
`_aggregate_results` (lines 152-155 and 158-161), starting at rank `rank`. -/
def foldContrib (tbl : List (String × ℚ)) (results : List Result) (rank : Nat) :
    List (String × ℚ) :=
  match results with
  | [] => tbl
  | (d, s) :: rest => foldContrib (bumpKey tbl (docKey d) (rrfWeight rank * s)) rest (rank + 1)

/-- The `result_scores` dict after both accumulation loops of
`_aggregate_results` lines 149-161. -/
def result_scores (dense_results sparse_results : List Result) : List (String × ℚ) :=
  foldContrib (foldContrib [] dense_results 0) sparse_results 0

/-- The inner document lookup of `_aggregate_results` lines 170-173: the first
document in `dense_results + sparse_results` whose key matches, if any. -/
def findDoc (key : String) (pool : List Result) : Option Doc :=
  (pool.find? (fun r => docKey r.1 = key)).map (fun r => r.1)

/-- `_aggregate_results` (hybrid_retriever.py lines 135-175): accumulate
RRF-weighted scores per key, sort descending by accumulated score (Python's
`sorted(..., reverse=True)` is a stable descending sort), take the top `k`,
map each key back to the first matching document, and truncate to `k`.
The stable descending sort is modelled by `List.insertionSort` with the
relation `b.2 ≤ a.2`, which places ties in first-seen dict order exactly as
Python's stable `sorted(..., reverse=True)` does. -/
def aggregate_results (dense_results sparse_results : List Result) (k : Nat) :
    List Result :=
  let sorted_results :=
    (result_scores dense_results sparse_results).insertionSort (fun a b => b.2 ≤ a.2)
  ((sorted_results.take k).filterMap (fun e =>
    (findDoc e.1 (dense_results ++ sparse_results)).map (fun d => (d, e.2)))).take k

/-- `k = k or settings.RETRIEVAL_K` (hybrid_retriever.py line 59): both
`None` and the falsy `0` are replaced by the configured default. -/
def effectiveK (st : Settings) (k : Option Nat) : Nat :=
  match k with
  | none => st.RETRIEVAL_K
  | some 0 => st.RETRIEVAL_K
  | some n => n

/-- `retrieve` (hybrid_retriever.py lines 48-70): dense-only when hybrid
retrieval is disabled, otherwise fuse dense and sparse searches over-fetched
at `min(k * 2, RETRIEVAL_K_MAX)` and truncate to `k`. -/
def retrieve (st : Settings) (b : DenseBackend) (idx : SparseIndex)
    (metadata_store : List Doc) (query : String) (k : Option Nat)
    (filters : Option Filters) : List Result :=
  let k := effectiveK st k
  if ¬ st.USE_HYBRID_RETRIEVAL then
    dense_search st b query k filters
  else
    aggregate_results
      (dense_search st b query (min (k * 2) st.RETRIEVAL_K_MAX) filters)
      (sparse_search idx metadata_store query (min (k * 2) st.RETRIEVAL_K_MAX))
      k

/-- State of `VectorStore`'s backing stores: the entries held by the vector
index backend and the positional metadata store (vector_store.py lines 29-31). -/
structure VectorStoreState where
  index_entries : List (List ℚ)
  metadata_store : List Doc
deriving DecidableEq

/-- `add_documents` (vector_store.py lines 81-102): reject a batch whose
document and embedding counts differ before touching any store; otherwise
dispatch to the backend-specific adder (`_add_to_chroma` / `_add_to_faiss`,
modelled as the oracle `backendAdd` since they consist of external
Chroma/FAISS calls plus `_save_metadata`). -/
def add_documents (backendAdd : VectorStoreState → List Doc → List (List ℚ) →
    Bool × VectorStoreState) (st : VectorStoreState) (documents : List Doc)
    (embeddings : List (List ℚ)) : Bool × VectorStoreState :=
  if documents.length ≠ embeddings.length then (false, st)
  else backendAdd st documents embeddings

/-- The per-list RRF contribution of the spec (§4.3.2): the sum, over the
occurrences of key `key` in `results` enumerated from `rank`, of
`w(rank) * native_score`. -/
def contribFrom (results : List Result) (rank : Nat) (key : String) : ℚ :=
  match results with
  | [] => 0
  | (d, s) :: rest =>
    (if docKey d = key then rrfWeight rank * s else 0) + contribFrom rest (rank + 1) key

/-- The fused score of the spec (§4.3.2): contributions accumulated across
both lists, each enumerated 0-based. -/
def fusedScore (dense_results sparse_results : List Result) (key : String) : ℚ :=
  contribFrom dense_results 0 key + contribFrom sparse_results 0 key

/-- The score a Python dict lookup `result_scores.get(key, 0)` would return:
the value at the first entry with key `key`, or `0`. -/
def keyScore (tbl : List (String × ℚ)) (key : String) : ℚ :=
  match tbl with
  | [] => 0
  | (k, v) :: rest => if k = key then v else keyScore rest key

/-- A dense backend that always raises, for instantiating failure theorems. -/
def failingDense : DenseBackend := ⟨fun _ _ _ => Except.error ()⟩

/-- A sparse index whose external scoring always raises. -/
def failingSparse : SparseIndex := ⟨true, fun _ => Except.error ()⟩

/-- A dense backend returning a single fixed chunk with similarity 1/2. -/
def exDense : DenseBackend :=
  ⟨fun _ _ _ => Except.ok [(⟨"bank robbery statute", 0⟩, 1/2)]⟩

/-- A sparse index with no vectorizer (the empty-corpus state of
`_build_bm25_index` lines 40-42). -/
def exSparse : SparseIndex := ⟨false, fun _ => Except.ok []⟩

/-- A dense backend returning no results, compliant with any cardinality. -/
def emptyDense : DenseBackend := ⟨fun _ _ _ => Except.ok []⟩

/-! ### Helper lemmas on the score-accumulation table -/

lemma keyScore_bumpKey (tbl : List (String × ℚ)) (k key : String) (v : ℚ) :
    keyScore (bumpKey tbl k v) key = keyScore tbl key + (if k = key then v else 0) := by
  induction tbl with
  | nil =>
    by_cases h : k = key <;> simp [bumpKey, keyScore, h]
  | cons hd rest ih =>
    obtain ⟨k', w⟩ := hd
    by_cases h1 : k' = k
    · subst h1
      by_cases h2 : k' = key <;> simp [bumpKey, keyScore, h2]
    · by_cases h2 : k' = key
      · subst h2
        have hk : ¬ k = k' := fun h => h1 h.symm
        simp [bumpKey, keyScore, h1, hk]
      · simp [bumpKey, keyScore, h1, h2, ih]

lemma keyScore_foldContrib (results : List Result) (tbl : List (String × ℚ))
    (rank : Nat) (key : String) :
    keyScore (foldContrib tbl results rank) key
      = keyScore tbl key + contribFrom results rank key := by
  induction results generalizing tbl rank with
  | nil => simp [foldContrib, contribFrom]
  | cons hd rest ih =>
    obtain ⟨d, s⟩ := hd
    simp only [foldContrib, contribFrom]
    rw [ih, keyScore_bumpKey]
    by_cases h : docKey d = key
    · simp [h]; ring
    · simp [h]

lemma keyScore_result_scores (dense_results sparse_results : List Result) (key : String) :
    keyScore (result_scores dense_results sparse_results) key
      = fusedScore dense_results sparse_results key := by
  simp [result_scores, fusedScore, keyScore_foldContrib, keyScore]

lemma keys_bumpKey (tbl : List (String × ℚ)) (k : String) (v : ℚ) :
    (bumpKey tbl k v).map Prod.fst =
      if k ∈ tbl.map Prod.fst then tbl.map Prod.fst else tbl.map Prod.fst ++ [k] := by
  induction tbl with
  | nil => simp [bumpKey]
  | cons hd rest ih =>
    obtain ⟨k', w⟩ := hd
    by_cases h : k' = k
    · subst h
      simp [bumpKey]
    · have hk : ¬ k = k' := fun hh => h hh.symm
      by_cases h2 : k ∈ rest.map Prod.fst <;> simp [bumpKey, h, hk, h2, ih]

lemma nodup_keys_bumpKey (tbl : List (String × ℚ)) (k : String) (v : ℚ)
    (h : (tbl.map Prod.fst).Nodup) : ((bumpKey tbl k v).map Prod.fst).Nodup := by
  rw [keys_bumpKey]
  by_cases h2 : k ∈ tbl.map Prod.fst
  · simpa [h2]
  · have : (tbl.map Prod.fst ++ [k]).Nodup := by
      rw [List.nodup_append]
      refine ⟨h, List.nodup_singleton k, ?_⟩
      intro a ha hb
      rcases List.mem_singleton.mp hb with rfl
      exact h2 ha
    simpa [h2]

lemma mem_keys_bumpKey (tbl : List (String × ℚ)) (k key : String) (v : ℚ) :
    key ∈ (bumpKey tbl k v).map Prod.fst ↔ key ∈ tbl.map Prod.fst ∨ key = k := by
  rw [keys_bumpKey]
  by_cases h2 : k ∈ tbl.map Prod.fst
  · simp only [h2, if_true]
    constructor
    · exact fun h => Or.inl h
    · rintro (h | rfl)
      · exact h
      · exact h2
  · simp [h2]

lemma nodup_keys_foldContrib (results : List Result) (tbl : List (String × ℚ)) (rank : Nat)
    (h : (tbl.map Prod.fst).Nodup) :
    ((foldContrib tbl results rank).map Prod.fst).Nodup := by
  induction results generalizing tbl rank with
  | nil => simpa [foldContrib]
  | cons hd rest ih =>
    obtain ⟨d, s⟩ := hd
    exact ih _ _ (nodup_keys_bumpKey _ _ _ h)

lemma nodup_keys_result_scores (dense_results sparse_results : List Result) :
    ((result_scores dense_results sparse_results).map Prod.fst).Nodup :=
  nodup_keys_foldContrib _ _ _ (nodup_keys_foldContrib _ _ _ (by simp))

lemma mem_keys_foldContrib (results : List Result) (tbl : List (String × ℚ)) (rank : Nat)
    (key : String) :
    key ∈ (foldContrib tbl results rank).map Prod.fst ↔
      key ∈ tbl.map Prod.fst ∨ key ∈ results.map (fun r => docKey r.1) := by
  induction results generalizing tbl rank with
  | nil => simp [foldContrib]
  | cons hd rest ih =>
    obtain ⟨d, s⟩ := hd
    simp only [foldContrib, ih, mem_keys_bumpKey, List.map_cons, List.mem_cons]
    tauto

lemma mem_keys_result_scores (dense_results sparse_results : List Result) (key : String) :
    key ∈ (result_scores dense_results sparse_results).map Prod.fst ↔
      key ∈ dense_results.map (fun r => docKey r.1) ∨
      key ∈ sparse_results.map (fun r => docKey r.1) := by
  rw [result_scores, mem_keys_foldContrib, mem_keys_foldContrib]
  simp

lemma eq_keyScore_of_mem (tbl : List (String × ℚ)) (key : String) (v : ℚ)
    (hmem : (key, v) ∈ tbl) (hnd : (tbl.map Prod.fst).Nodup) :
    v = keyScore tbl key := by
  induction tbl with
  | nil => simp at hmem
  | cons hd rest ih =>
    obtain ⟨k', w⟩ := hd
    rcases List.mem_cons.mp hmem with h | h
    · rw [Prod.mk.injEq] at h
      simp [keyScore, h.1, h.2]
    · have hknd : (rest.map Prod.fst).Nodup := (List.nodup_cons.mp (by simpa using hnd)).2
      have hkne : k' ≠ key := by
        intro he
        have : key ∈ rest.map Prod.fst :=
          List.mem_map.mpr ⟨(key, v), h, rfl⟩
        exact (List.nodup_cons.mp (by simpa using hnd)).1 (he ▸ this)
      simp [keyScore, hkne, ih h hknd]

lemma keyScore_mem (tbl : List (String × ℚ)) (key : String)
    (h : key ∈ tbl.map Prod.fst) : (key, keyScore tbl key) ∈ tbl := by
  induction tbl with
  | nil => simp at h
  | cons hd rest ih =>
    obtain ⟨k', w⟩ := hd
    by_cases he : k' = key
    · subst he
      simp [keyScore]
    · have : key ∈ rest.map Prod.fst := by
        rcases List.mem_map.mp h with ⟨e, hem, hee⟩
        rcases List.mem_cons.mp hem with h1 | h1
        · exact absurd (by rw [h1] at hee; simpa using hee) he
        · exact List.mem_map.mpr ⟨e, h1, hee⟩
      simp only [keyScore, he, if_false]
      exact List.mem_cons_of_mem _ (ih this)

/-! ### Helper lemmas on sorting and the fused output -/

lemma sorted_scores (tbl : List (String × ℚ)) :
    List.Sorted (fun a b : String × ℚ => b.2 ≤ a.2)
      (tbl.insertionSort (fun a b => b.2 ≤ a.2)) :=
  @List.sorted_insertionSort (String × ℚ) (fun a b => b.2 ≤ a.2) _
    ⟨fun a b => le_total b.2 a.2⟩ ⟨fun _ _ _ h1 h2 => le_trans h2 h1⟩ tbl

lemma findDoc_eq_some (key : String) (pool : List Result) (d : Doc)
    (h : findDoc key pool = some d) :
    docKey d = key ∧ ∃ s, (d, s) ∈ pool := by
  rw [findDoc] at h
  rcases Option.map_eq_some'.mp h with ⟨r, hr, hrd⟩
  have h1 := List.find?_some hr
  have h2 := List.mem_of_find?_eq_some hr
  subst hrd
  exact ⟨by simpa using h1, r.2, h2⟩

lemma findDoc_isSome (key : String) (pool : List Result)
    (h : ∃ r ∈ pool, docKey r.1 = key) : ∃ d, findDoc key pool = some d := by
  rcases h with ⟨r, hr, hkey⟩
  have : (pool.find? (fun r => docKey r.1 = key)).isSome = true :=
    List.find?_isSome.mpr ⟨r, hr, by simpa using hkey⟩
  rcases Option.isSome_iff_exists.mp this with ⟨r', hr'⟩
  exact ⟨r'.1, by simp [findDoc, hr']⟩

/-- Every member of the fused output arises from an entry of the sorted,
truncated score table whose key resolves to the member's document. -/
lemma mem_aggregate_results (dense_results sparse_results : List Result) (k : Nat)
    (r : Result) (h : r ∈ aggregate_results dense_results sparse_results k) :
    ∃ e ∈ ((result_scores dense_results sparse_results).insertionSort
        (fun a b => b.2 ≤ a.2)).take k,
      findDoc e.1 (dense_results ++ sparse_results) = some r.1 ∧ r.2 = e.2 := by
  simp only [aggregate_results] at h
  have h2 := (List.take_sublist k _).mem h
  rcases List.mem_filterMap.mp h2 with ⟨e, he, hge⟩
  rcases Option.map_eq_some'.mp hge with ⟨d, hd, hdr⟩
  subst hdr
  exact ⟨e, he, by simpa using hd, rfl⟩

lemma aggregate_results_length_le (dense_results sparse_results : List Result) (k : Nat) :
    (aggregate_results dense_results sparse_results k).length ≤ k := by
  simp only [aggregate_results]
  rw [List.length_take]
  exact min_le_left _ _

lemma dense_search_error (st : Settings) (b : DenseBackend) (q : String) (k : Nat)
    (f : Option Filters) (h : b.searchRaw q k f = Except.error ()) :
    dense_search st b q k f = [] := by
  simp [dense_search, h]

lemma sparse_search_error (idx : SparseIndex) (ms : List Doc) (q : String) (k : Nat)
    (h : idx.scoresOf q = Except.error ()) : sparse_search idx ms q k = [] := by
  by_cases hv : idx.hasVectorizer
  · simp [sparse_search, hv, h]
  · simp [sparse_search, hv]

lemma aggregate_results_nil (k : Nat) : aggregate_results [] [] k = [] := by
  simp [aggregate_results, result_scores, foldContrib, List.insertionSort]

lemma effectiveK_self (st : Settings) :
    effectiveK st (some st.RETRIEVAL_K) = st.RETRIEVAL_K := by
  rcases h : st.RETRIEVAL_K with _ | n
  · simp [effectiveK, h]
  · simp [effectiveK, h]

lemma retrieve_hybrid_eq (st : Settings) (b : DenseBackend) (idx : SparseIndex)
    (ms : List Doc) (q : String) (k : Option Nat) (f : Option Filters)
    (hh : st.USE_HYBRID_RETRIEVAL = true) :
    retrieve st b idx ms q k f =
      aggregate_results
        (dense_search st b q (min (effectiveK st k * 2) st.RETRIEVAL_K_MAX) f)
        (sparse_search idx ms q (min (effectiveK st k * 2) st.RETRIEVAL_K_MAX))
        (effectiveK st k) := by
  simp [retrieve, hh]

lemma retrieve_dense_only_eq (st : Settings) (b : DenseBackend) (idx : SparseIndex)
    (ms : List Doc) (q : String) (k : Option Nat) (f : Option Filters)
    (hh : st.USE_HYBRID_RETRIEVAL = false) :
    retrieve st b idx ms q k f = dense_search st b q (effectiveK st k) f := by
  simp [retrieve, hh]

/-! ### Claim theorems -/

/-- C1: for every query, k and filter mapping, an exception inside the dense
sub-search or the sparse sub-search is caught at that sub-search's boundary
and treated as an empty result list for that signal; fusion proceeds with the
signal that succeeded; and when both signals fail `retrieve` returns `[]`.
(`retrieve` is a total Lean function, so it never raises by construction;
the theorem shows the failure cases degrade exactly as the spec states.) -/
theorem retrieve_error_containment (st : Settings) (b : DenseBackend) (idx : SparseIndex)
    (ms : List Doc) (q : String) (k : Option Nat) (f : Option Filters)
    (hd : ∀ kc, b.searchRaw q kc f = Except.error ())
    (hs : idx.scoresOf q = Except.error ()) :
    (∀ kc, dense_search st b q kc f = []) ∧
    (∀ ms' kc, sparse_search idx ms' q kc = []) ∧
    retrieve st b idx ms q k f = [] ∧
    (∀ idx' : SparseIndex, st.USE_HYBRID_RETRIEVAL = true →
      retrieve st b idx' ms q k f =
        aggregate_results []
          (sparse_search idx' ms q (min (effectiveK st k * 2) st.RETRIEVAL_K_MAX))
          (effectiveK st k)) ∧
    (∀ b' : DenseBackend, st.USE_HYBRID_RETRIEVAL = true →
      retrieve st b' idx ms q k f =
        aggregate_results
          (dense_search st b' q (min (effectiveK st k * 2) st.RETRIEVAL_K_MAX) f) []
          (effectiveK st k)) := by
  refine ⟨fun kc => dense_search_error st b q kc f (hd kc),
          fun ms' kc => sparse_search_error idx ms' q kc hs, ?_, ?_, ?_⟩
  · by_cases hh : st.USE_HYBRID_RETRIEVAL
    · simp [retrieve, hh, dense_search_error st b q _ f (hd _),
        sparse_search_error idx ms q _ hs, aggregate_results_nil]
    · simp [retrieve, hh, dense_search_error st b q _ f (hd _)]
  · intro idx' hh
    simp [retrieve, hh, dense_search_error st b q _ f (hd _)]
  · intro b' hh
    simp [retrieve, hh, sparse_search_error idx ms q _ hs]

theorem retrieve_error_containment_witness :
    retrieve defaultSettings failingDense failingSparse [] "robbery" (some 3) none = [] :=
  (retrieve_error_containment defaultSettings failingDense failingSparse [] "robbery"
    (some 3) none (fun _ => rfl) rfl).2.2.1

/-- C6: the dense search output is exactly the index's returned list filtered
by `score >= SIMILARITY_THRESHOLD`, so any result with score below the
threshold is excluded; the filter is applied after retrieval to whatever the
index returned (the index oracle takes only query, cardinality and metadata
filters — no score bound can be pushed down to it). -/
theorem dense_search_threshold (st : Settings) (b : DenseBackend) (q : String) (k : Nat)
    (f : Option Filters) (rs : List Result) (h : b.searchRaw q k f = Except.ok rs) :
    dense_search st b q k f = rs.filter (fun r => st.SIMILARITY_THRESHOLD ≤ r.2) ∧
    ∀ r ∈ rs, r.2 < st.SIMILARITY_THRESHOLD → r ∉ dense_search st b q k f := by
  constructor
  · simp [dense_search, h]
  · intro r hr hlt hmem
    have hp : r ∈ rs ∧ st.SIMILARITY_THRESHOLD ≤ r.2 := by
      simpa [dense_search, h] using hmem
    exact absurd hp.2 (not_le.mpr hlt)

theorem dense_search_threshold_witness :
    dense_search defaultSettings exDense "q" 5 none
      = [(⟨"bank robbery statute", 0⟩, 1/2)] := by
  have h := (dense_search_threshold defaultSettings exDense "q" 5 none
    [(⟨"bank robbery statute", 0⟩, 1/2)] rfl).1
  rw [h]
  norm_num [List.filter, defaultSettings]

/-- C7: a batch whose document count differs from its embedding count is
rejected: `add_documents` returns `False` and leaves both the vector index
and the metadata store exactly as they were, whatever the backend adder
would have done. -/
theorem add_documents_mismatch (backendAdd : VectorStoreState → List Doc →
    List (List ℚ) → Bool × VectorStoreState) (st : VectorStoreState)
    (documents : List Doc) (embeddings : List (List ℚ))
    (h : documents.length ≠ embeddings.length) :
    add_documents backendAdd st documents embeddings = (false, st) := by
  simp [add_documents, h]

theorem add_documents_mismatch_witness :
    add_documents (fun _ d e => (true, ⟨e, d⟩)) ⟨[], []⟩ [⟨"a", 0⟩] []
      = (false, ⟨[], []⟩) :=
  add_documents_mismatch _ _ _ _ (by decide)

/-- C8: in hybrid mode both sub-searches are invoked with the over-fetch
count `min(2k, RETRIEVAL_K_MAX)` (for the effective k after argument
defaulting), and the fused output is truncated to k. -/
theorem retrieve_overfetch (st : Settings) (b : DenseBackend) (idx : SparseIndex)
    (ms : List Doc) (q : String) (k : Option Nat) (f : Option Filters)
    (h : st.USE_HYBRID_RETRIEVAL = true) :
    retrieve st b idx ms q k f =
      aggregate_results
        (dense_search st b q (min (2 * effectiveK st k) st.RETRIEVAL_K_MAX) f)
        (sparse_search idx ms q (min (2 * effectiveK st k) st.RETRIEVAL_K_MAX))
        (effectiveK st k) := by
  simp [retrieve, h, Nat.mul_comm]

theorem retrieve_overfetch_witness :
    retrieve defaultSettings emptyDense exSparse [] "q" (some 2) none =
      aggregate_results
        (dense_search defaultSettings emptyDense "q"
          (min (2 * effectiveK defaultSettings (some 2)) defaultSettings.RETRIEVAL_K_MAX) none)
        (sparse_search exSparse [] "q"
          (min (2 * effectiveK defaultSettings (some 2)) defaultSettings.RETRIEVAL_K_MAX))
        (effectiveK defaultSettings (some 2)) :=
  retrieve_overfetch defaultSettings emptyDense exSparse [] "q" (some 2) none rfl

/-- C9: passing `k = 0` or `k = None` to `retrieve` behaves identically to
passing the configured default `RETRIEVAL_K`; in particular with `k = 0` a
non-empty list of up to `RETRIEVAL_K` results can be returned (here exactly
one result for a backend holding one above-threshold chunk), not the empty
list. -/
theorem retrieve_default_k (st : Settings) (b : DenseBackend) (idx : SparseIndex)
    (ms : List Doc) (q : String) (f : Option Filters) :
    retrieve st b idx ms q none f = retrieve st b idx ms q (some st.RETRIEVAL_K) f ∧
    retrieve st b idx ms q (some 0) f = retrieve st b idx ms q (some st.RETRIEVAL_K) f ∧
    retrieve defaultSettings exDense exSparse [] q (some 0) f
      = [(⟨"bank robbery statute", 0⟩, 1/120)] ∧
    defaultSettings.RETRIEVAL_K = 5 := by
  refine ⟨?_, ?_, ?_, rfl⟩
  · have h : effectiveK st none = effectiveK st (some st.RETRIEVAL_K) := by
      rw [effectiveK_self st]
      rfl
    unfold retrieve
    rw [h]
  · have h : effectiveK st (some 0) = effectiveK st (some st.RETRIEVAL_K) := by
      rw [effectiveK_self st]
      rfl
    unfold retrieve
    rw [h]
  · set_option maxRecDepth 40000 in
    norm_num [retrieve, effectiveK, dense_search, exDense, exSparse, sparse_search,
      aggregate_results, result_scores, foldContrib, bumpKey, rrfWeight, docKey,
      findDoc, defaultSettings, List.insertionSort, List.orderedInsert]
    simp [List.filterMap_cons]

lemma dense_search_length_le (st : Settings) (b : DenseBackend) (q : String) (k : Nat)
    (f : Option Filters)
    (hb : ∀ rs, b.searchRaw q k f = Except.ok rs → rs.length ≤ k) :
    (dense_search st b q k f).length ≤ k := by
  rcases hr : b.searchRaw q k f with e | rs
  · simp [dense_search, hr]
  · simp only [dense_search, hr]
    exact le_trans (List.length_filter_le _ _) (hb rs hr)

/-- C2 counterexample: with the default settings, a backend holding one
above-threshold chunk, and `k = 0`, `retrieve` returns one result, so
`len(retrieve(q, k, filters)) <= k` fails at `k = 0` (the falsy `0` is
replaced by `RETRIEVAL_K = 5` on line 59 of hybrid_retriever.py). -/
theorem retrieve_cardinality_counterexample :
    ¬ ((retrieve defaultSettings exDense exSparse [] "q" (some 0) none).length ≤ 0) := by
  have he : retrieve defaultSettings exDense exSparse [] "q" (some 0) none
      = [(⟨"bank robbery statute", 0⟩, 1/120)] := by
    set_option maxRecDepth 40000 in
    norm_num [retrieve, effectiveK, dense_search, exDense, exSparse, sparse_search,
      aggregate_results, result_scores, foldContrib, bumpKey, rrfWeight, docKey,
      findDoc, defaultSettings, List.insertionSort, List.orderedInsert]
    simp [List.filterMap_cons]
  rw [he]
  norm_num

/-- C2 amended: for every query, every filter mapping and every k ≥ 1
(`k = 0` falls back to the configured default, see the counterexample), the
list returned by `retrieve(q, k, filters)` has length at most `k`, in both
dense-only and hybrid modes, provided the vector-index backend honours its
cardinality contract (`search` returns at most the requested number of
results, spec §4.1). -/
theorem retrieve_cardinality (st : Settings) (b : DenseBackend) (idx : SparseIndex)
    (ms : List Doc) (q : String) (f : Option Filters) (k : Nat)
    (hb : ∀ q' k' f' rs, b.searchRaw q' k' f' = Except.ok rs → rs.length ≤ k')
    (hk : 1 ≤ k) :
    (retrieve st b idx ms q (some k) f).length ≤ k := by
  obtain ⟨n, rfl⟩ : ∃ n, k = n + 1 := ⟨k - 1, by omega⟩
  have hek : effectiveK st (some (n + 1)) = n + 1 := rfl
  by_cases hh : st.USE_HYBRID_RETRIEVAL
  · rw [retrieve_hybrid_eq st b idx ms q (some (n + 1)) f hh, hek]
    exact aggregate_results_length_le _ _ _
  · rw [retrieve_dense_only_eq st b idx ms q (some (n + 1)) f (by simpa using hh), hek]
    exact dense_search_length_le st b q (n + 1) f (fun rs h => hb q (n + 1) f rs h)

theorem retrieve_cardinality_witness :
    (retrieve defaultSettings emptyDense exSparse [] "q" (some 3) none).length ≤ 3 :=
  retrieve_cardinality defaultSettings emptyDense exSparse [] "q" none 3
    (fun q' k' f' rs h => by cases h; simp) (by norm_num)

lemma rrfWeight_pos (rank : Nat) : 0 < rrfWeight rank := by
  rw [rrfWeight]
  have h : (0:ℚ) < 60 + (rank : ℚ) := by positivity
  exact div_pos one_pos h

lemma contribFrom_nonneg (rs : List Result) (key : String) :
    ∀ rank, (∀ r ∈ rs, 0 ≤ r.2) → 0 ≤ contribFrom rs rank key := by
  induction rs with
  | nil => intro rank h; simp [contribFrom]
  | cons hd rest ih =>
    intro rank h
    obtain ⟨d, s⟩ := hd
    simp only [contribFrom]
    have h1 : (0:ℚ) ≤ if docKey d = key then rrfWeight rank * s else 0 := by
      by_cases hc : docKey d = key
      · rw [if_pos hc]
        exact mul_nonneg (le_of_lt (rrfWeight_pos rank)) (h (d, s) (by simp))
      · rw [if_neg hc]
    have h2 := ih (rank + 1) (fun r hr => h r (List.mem_cons_of_mem _ hr))
    linarith

lemma contribFrom_pos (rs : List Result) (key : String) :
    ∀ rank, (∀ r ∈ rs, 0 ≤ r.2) → (∃ r ∈ rs, docKey r.1 = key ∧ 0 < r.2) →
    0 < contribFrom rs rank key := by
  induction rs with
  | nil => intro rank h hex; simp at hex
  | cons hd rest ih =>
    intro rank h hex
    obtain ⟨d, s⟩ := hd
    simp only [contribFrom]
    rcases hex with ⟨r, hr, hkey, hpos⟩
    rcases List.mem_cons.mp hr with h1 | h1
    · subst h1
      rw [if_pos (by simpa using hkey)]
      have hm : 0 < rrfWeight rank * s := mul_pos (rrfWeight_pos rank) (by simpa using hpos)
      have h2 := contribFrom_nonneg rest key (rank + 1)
        (fun r hr => h r (List.mem_cons_of_mem _ hr))
      linarith
    · have h2 := ih (rank + 1) (fun r hr => h r (List.mem_cons_of_mem _ hr))
        ⟨r, h1, hkey, hpos⟩
      have h1' : (0:ℚ) ≤ if docKey d = key then rrfWeight rank * s else 0 := by
        by_cases hc : docKey d = key
        · rw [if_pos hc]
          exact mul_nonneg (le_of_lt (rrfWeight_pos rank)) (h (d, s) (by simp))
        · rw [if_neg hc]
      linarith

/-- C5: a chunk that occurs (with positive native score) in both the dense
and the sparse list receives a strictly higher fused score than the fused
score it would receive appearing in only one of the lists with the same
native score and rank there (dropping the other list leaves its per-list
contribution, and hence its ranks, unchanged). The positivity hypotheses
hold for all code-produced lists: sparse search keeps only `score > 0` and
dense search keeps only `score >= SIMILARITY_THRESHOLD` (default 0.3). -/
theorem fused_score_strict_mono (dense_results sparse_results : List Result) (key : String)
    (hd : ∃ r ∈ dense_results, docKey r.1 = key ∧ 0 < r.2)
    (hs : ∃ r ∈ sparse_results, docKey r.1 = key ∧ 0 < r.2)
    (hdnn : ∀ r ∈ dense_results, 0 ≤ r.2)
    (hsnn : ∀ r ∈ sparse_results, 0 ≤ r.2) :
    fusedScore dense_results [] key < fusedScore dense_results sparse_results key ∧
    fusedScore [] sparse_results key < fusedScore dense_results sparse_results key := by
  have h1 : 0 < contribFrom sparse_results 0 key := contribFrom_pos _ _ 0 hsnn hs
  have h2 : 0 < contribFrom dense_results 0 key := contribFrom_pos _ _ 0 hdnn hd
  have h0 : contribFrom ([] : List Result) 0 key = 0 := rfl
  constructor
  · simp only [fusedScore, h0]
    linarith
  · simp only [fusedScore, h0]
    linarith

theorem fused_score_strict_mono_witness :
    fusedScore [(⟨"a", 0⟩, 1)] [] (docKey ⟨"a", 0⟩)
      < fusedScore [(⟨"a", 0⟩, 1)] [(⟨"a", 0⟩, 2)] (docKey ⟨"a", 0⟩) :=
  (fused_score_strict_mono [(⟨"a", 0⟩, 1)] [(⟨"a", 0⟩, 2)] (docKey ⟨"a", 0⟩)
    ⟨(⟨"a", 0⟩, 1), by simp, rfl, by norm_num⟩
    ⟨(⟨"a", 0⟩, 2), by simp, rfl, by norm_num⟩
    (fun r hr => by rcases List.mem_singleton.mp hr with rfl; norm_num)
    (fun r hr => by rcases List.mem_singleton.mp hr with rfl; norm_num)).1

/-- C4 (refuting theorem): fusion keys chunks by the first 100 characters of
their text, not by a stable id. Two distinct chunks (same text, different
page metadata — hence sharing their first 100 characters) are merged into a
single fused entry whose score is the sum 1/60 + 1/60 = 1/30 of both
contributions, and the sparse-side chunk never appears in the output, in
contradiction with the claim that such chunks receive separate fused scores
and are never merged. -/
theorem aggregate_results_key_collision :
    (⟨"bank robbery statute", 1⟩ : Doc) ≠ ⟨"bank robbery statute", 2⟩ ∧
    docKey ⟨"bank robbery statute", 1⟩ = docKey ⟨"bank robbery statute", 2⟩ ∧
    aggregate_results [(⟨"bank robbery statute", 1⟩, 1)]
        [(⟨"bank robbery statute", 2⟩, 1)] 5
      = [(⟨"bank robbery statute", 1⟩, 1/30)] := by
  refine ⟨by simp, rfl, ?_⟩
  set_option maxRecDepth 40000 in
  norm_num [aggregate_results, result_scores, foldContrib, bumpKey, rrfWeight, docKey,
    findDoc, List.insertionSort, List.orderedInsert]
  simp [List.filterMap_cons]

/-- C10: for every pair of input lists and every k, the fused list contains
at most one entry per deduplication key — no two returned documents share
the same first 100 characters of text. -/
theorem aggregate_results_dedup (dense_results sparse_results : List Result) (k : Nat) :
    (aggregate_results dense_results sparse_results k).Pairwise
      (fun a b => docKey a.1 ≠ docKey b.1) := by
  have hnd : ((result_scores dense_results sparse_results).map Prod.fst).Nodup :=
    nodup_keys_result_scores dense_results sparse_results
  have hperm : ((result_scores dense_results sparse_results).insertionSort
      (fun a b => b.2 ≤ a.2)).Perm (result_scores dense_results sparse_results) :=
    List.perm_insertionSort _ _
  have hnd2 : (((result_scores dense_results sparse_results).insertionSort
      (fun a b => b.2 ≤ a.2)).map Prod.fst).Nodup :=
    ((hperm.map Prod.fst).symm).nodup hnd
  have hpw : ((result_scores dense_results sparse_results).insertionSort
      (fun a b => b.2 ≤ a.2)).Pairwise (fun e e' => e.1 ≠ e'.1) :=
    List.pairwise_map.mp hnd2
  have hpwtake := List.Pairwise.sublist (List.take_sublist k _) hpw
  have hfm : (((((result_scores dense_results sparse_results).insertionSort
        (fun a b => b.2 ≤ a.2)).take k)).filterMap (fun e =>
      (findDoc e.1 (dense_results ++ sparse_results)).map
        (fun d => (d, e.2)))).Pairwise (fun a b => docKey a.1 ≠ docKey b.1) := by
    rw [List.pairwise_filterMap]
    refine hpwtake.imp ?_
    intro e e' hne x hx y hy
    rcases Option.map_eq_some'.mp hx with ⟨dx, hdx, hxe⟩
    rcases Option.map_eq_some'.mp hy with ⟨dy, hdy, hye⟩
    have h1 : docKey dx = e.1 := (findDoc_eq_some _ _ _ hdx).1
    have h2 : docKey dy = e'.1 := (findDoc_eq_some _ _ _ hdy).1
    rw [← hxe, ← hye]
    simpa [h1, h2] using hne
  exact List.Pairwise.sublist (List.take_sublist k _) hfm

/-- C3: fusion computes each returned chunk's fused score as the sum, over
its occurrences in the two lists, of `w(rank) * native_score` with
`w(rank) = 1/(60 + rank)` (`rank` the 0-based position in that list, cf.
`fusedScore`/`contribFrom`), sorts by accumulated fused score descending,
and returns the top k: the output is ordered by descending fused score, and
any pooled chunk whose key was cut off has a fused score no larger than any
returned one. -/
theorem aggregate_results_rrf (dense_results sparse_results : List Result) (k : Nat) :
    (∀ r ∈ aggregate_results dense_results sparse_results k,
      r.2 = fusedScore dense_results sparse_results (docKey r.1)) ∧
    (aggregate_results dense_results sparse_results k).Pairwise
      (fun a b => b.2 ≤ a.2) ∧
    (∀ d ∈ (dense_results ++ sparse_results).map Prod.fst,
      (∀ r ∈ aggregate_results dense_results sparse_results k, docKey r.1 ≠ docKey d) →
      ∀ r ∈ aggregate_results dense_results sparse_results k,
        fusedScore dense_results sparse_results (docKey d) ≤ r.2) := by
  have hnd : ((result_scores dense_results sparse_results).map Prod.fst).Nodup :=
    nodup_keys_result_scores dense_results sparse_results
  have hperm : ((result_scores dense_results sparse_results).insertionSort
      (fun a b => b.2 ≤ a.2)).Perm (result_scores dense_results sparse_results) :=
    List.perm_insertionSort _ _
  refine ⟨?_, ?_, ?_⟩
  · intro r hr
    obtain ⟨e, he, hfind, hre⟩ := mem_aggregate_results _ _ _ r hr
    have het : e ∈ result_scores dense_results sparse_results :=
      hperm.subset ((List.take_sublist k _).subset he)
    have hval : e.2 = keyScore (result_scores dense_results sparse_results) e.1 :=
      eq_keyScore_of_mem _ e.1 e.2 (by simpa using het) hnd
    have hkey : docKey r.1 = e.1 := (findDoc_eq_some _ _ _ hfind).1
    rw [hre, hval, hkey, keyScore_result_scores]
  · have hsort := sorted_scores (result_scores dense_results sparse_results)
    have htake := List.Pairwise.sublist (List.take_sublist k _) hsort
    have hfm : ((((result_scores dense_results sparse_results).insertionSort
          (fun a b => b.2 ≤ a.2)).take k).filterMap (fun e =>
        (findDoc e.1 (dense_results ++ sparse_results)).map
          (fun d => (d, e.2)))).Pairwise (fun a b => b.2 ≤ a.2) := by
      rw [List.pairwise_filterMap]
      refine htake.imp ?_
      intro e e' hle x hx y hy
      rcases Option.map_eq_some'.mp hx with ⟨dx, _, hxe⟩
      rcases Option.map_eq_some'.mp hy with ⟨dy, _, hye⟩
      rw [← hxe, ← hye]
      exact hle
    exact List.Pairwise.sublist (List.take_sublist k _) hfm
  · intro d hd hnotin r hr
    rcases List.mem_map.mp hd with ⟨rr, hrrmem, hrrd⟩
    have hκ : docKey d ∈ (result_scores dense_results sparse_results).map Prod.fst := by
      rw [mem_keys_result_scores]
      rcases List.mem_append.mp hrrmem with h1 | h1
      · exact Or.inl (List.mem_map.mpr ⟨rr, h1, by rw [hrrd]⟩)
      · exact Or.inr (List.mem_map.mpr ⟨rr, h1, by rw [hrrd]⟩)
    have hmem : (docKey d, keyScore (result_scores dense_results sparse_results) (docKey d))
        ∈ result_scores dense_results sparse_results :=
      keyScore_mem _ _ hκ
    have hsmem : (docKey d, keyScore (result_scores dense_results sparse_results) (docKey d))
        ∈ (result_scores dense_results sparse_results).insertionSort
          (fun a b => b.2 ≤ a.2) :=
      hperm.symm.subset hmem
    rw [← List.take_append_drop k ((result_scores dense_results sparse_results).insertionSort
      (fun a b => b.2 ≤ a.2))] at hsmem
    rcases List.mem_append.mp hsmem with hin | hin
    · exfalso
      obtain ⟨d0, hd0⟩ := findDoc_isSome (docKey d) (dense_results ++ sparse_results)
        ⟨rr, hrrmem, by rw [hrrd]⟩
      have hx : ((d0, keyScore (result_scores dense_results sparse_results) (docKey d)) :
          Result) ∈ (((result_scores dense_results sparse_results).insertionSort
            (fun a b => b.2 ≤ a.2)).take k).filterMap (fun e =>
          (findDoc e.1 (dense_results ++ sparse_results)).map (fun d => (d, e.2))) :=
        List.mem_filterMap.mpr ⟨_, hin, by simp [hd0]⟩
      have hlen : ((((result_scores dense_results sparse_results).insertionSort
            (fun a b => b.2 ≤ a.2)).take k).filterMap (fun e =>
          (findDoc e.1 (dense_results ++ sparse_results)).map
            (fun d => (d, e.2)))).length ≤ k :=
        le_trans (List.length_filterMap_le _ _)
          (by rw [List.length_take]; exact min_le_left _ _)
      have hout : ((d0, keyScore (result_scores dense_results sparse_results) (docKey d)) :
          Result) ∈ aggregate_results dense_results sparse_results k := by
        simp only [aggregate_results]
        rw [List.take_of_length_le hlen]
        exact hx
      exact hnotin _ hout ((findDoc_eq_some _ _ _ hd0).1)
    · obtain ⟨e, he, _, hre⟩ := mem_aggregate_results _ _ _ r hr
      have hcross : ∀ a ∈ ((result_scores dense_results sparse_results).insertionSort
            (fun a b => b.2 ≤ a.2)).take k,
          ∀ b ∈ ((result_scores dense_results sparse_results).insertionSort
            (fun a b => b.2 ≤ a.2)).drop k, b.2 ≤ a.2 := by
        have h2 : (((result_scores dense_results sparse_results).insertionSort
            (fun a b => b.2 ≤ a.2)).take k ++
              ((result_scores dense_results sparse_results).insertionSort
            (fun a b => b.2 ≤ a.2)).drop k).Pairwise (fun a b => b.2 ≤ a.2) := by
          rw [List.take_append_drop]
          exact sorted_scores _
        exact (List.pairwise_append.mp h2).2.2
      have hle := hcross e he _ hin
      rw [hre, ← keyScore_result_scores]
      exact hle

theorem aggregate_results_rrf_witness :
    ((1:ℚ)/60) = fusedScore [(⟨"a", 0⟩, (1:ℚ))] [] (docKey ⟨"a", 0⟩) := by
  have hagg : aggregate_results [(⟨"a", 0⟩, (1:ℚ))] [] 5 = [(⟨"a", 0⟩, 1/60)] := by
    set_option maxRecDepth 40000 in
    norm_num [aggregate_results, result_scores, foldContrib, bumpKey, rrfWeight, docKey,
      findDoc, List.insertionSort, List.orderedInsert]
    simp [List.filterMap_cons]
  have h := (aggregate_results_rrf [(⟨"a", 0⟩, (1:ℚ))] [] 5).1 (⟨"a", 0⟩, 1/60)
    (by rw [hagg]; simp)
  simpa using h

theorem aggregate_results_dedup_witness :
    (aggregate_results [(⟨"a", 0⟩, (1:ℚ))] [] 3).Pairwise
      (fun a b => docKey a.1 ≠ docKey b.1) :=
  aggregate_results_dedup [(⟨"a", 0⟩, (1:ℚ))] [] 3
